import Mathlib

/-!
Verification of the polyline-simplification program `rdplines.py`.

Points are modelled as pairs of exact rationals for the combinatorial
components (the RDP reducer, chunking, the statistics helpers and the
comparison verdict); real numbers appear only where the source takes a
square root (the epsilon estimator and the standard deviation).
-/

namespace Rdplines

/-- A planar point: the program's rows are (x, y) pairs. -/
abbrev Point := ℚ × ℚ

/-- Numerator of the point-to-line distance used throughout the program:
the 2D cross product magnitude
(y2 - y1) * xi - (x2 - x1) * yi + x2 * y1 - y2 * x1
of the chord a-b against the point p (before the absolute value). -/
def crossNum (a b p : Point) : ℚ :=
  (b.2 - a.2) * p.1 - (b.1 - a.1) * p.2 + b.1 * a.2 - b.2 * a.1

/-- Squared Euclidean length of the chord a-b. -/
def segLenSq (a b : Point) : ℚ :=
  (b.1 - a.1) ^ 2 + (b.2 - a.2) ^ 2

/-- Fold computing the first index attaining the maximum of a list of values,
scanning left to right and updating only on a strictly larger value
(so ties keep the earliest index).  Arguments: remaining values, index of the
next value, best index so far, best value so far. -/
def faAux : List ℚ → ℕ → ℕ → ℚ → ℕ × ℚ
  | [], _, bi, bv => (bi, bv)
  | v :: vs, i, bi, bv =>
    if bv < v then faAux vs (i + 1) i v else faAux vs (i + 1) bi bv

/-- First index attaining the maximum of a nonempty list of values, with that
maximum value; returns (0, 0) on the empty list (never used on it). -/
def firstArgmax : List ℚ → ℕ × ℚ
  | [] => (0, 0)
  | v :: vs => faAux vs 1 0 v

/-- Modelled from the spec: the classic recursive Ramer-Douglas-Peucker
reduction (spec section 4.3) that the source's classic_rdp delegates to via
the external rdp library (a dependency, not part of src/).  With at most two
points the input is returned unchanged.  Otherwise the interior point with
the largest perpendicular distance to the chord first-last is found (first
occurrence on ties); if that distance is strictly greater than epsilon the
two halves are reduced recursively and concatenated dropping the duplicated
split point, else only the endpoints are kept.  Distances are compared by
cross-product numerators: for epsilon >= 0 and a non-degenerate chord,
d > epsilon iff crossNum^2 > epsilon^2 * segLenSq, and the argmax over a
fixed chord is unchanged by squaring; a coincident-endpoint chord makes all
numerators zero, so the endpoint pair is returned (the spec's
DegenerateSegment case does not arise in the claims).  The first argument is
recursion fuel, instantiated with the list length by classic_rdp. -/
def rdpAux : ℕ → ℚ → List Point → List Point
  | 0, _, pts => pts
  | fuel + 1, eps, pts =>
    match pts with
    | [] => []
    | [p] => [p]
    | [p, q] => [p, q]
    | p :: q :: r :: tl =>
      let l := p :: q :: r :: tl
      let b := l.getLast (List.cons_ne_nil _ _)
      let interior := (q :: r :: tl).dropLast
      let vals := interior.map (fun m => (crossNum p b m) ^ 2)
      let k := (firstArgmax vals).1 + 1
      let m := (firstArgmax vals).2
      if eps < 0 ∨ m > eps ^ 2 * segLenSq p b then
        (rdpAux fuel eps (l.take (k + 1))).dropLast ++ rdpAux fuel eps (l.drop k)
      else [p, b]

/-- The source's classic_rdp (src/rdplines.py lines 14-19): runs the RDP
reduction on the whole polyline with the given epsilon. -/
def classic_rdp (points : List Point) (eps : ℚ) : List Point :=
  rdpAux points.length eps points

/-- A completed future: the shallow model of concurrent.futures,
where submitting work and asking for its result is function application. -/
structure Future (α : Type) where
  result : α

/-- Model of executor.submit: runs the task and wraps its value. -/
def submit (f : α → β) (x : α) : Future β :=
  ⟨f x⟩

/-- The source's parallel_rdp (src/rdplines.py lines 22-28): submits the whole
input as one task to the process-wide pool and waits for the result; the
pool indirection performs no subdivision. -/
def parallel_rdp (points : List Point) (eps : ℚ) : List Point :=
  (submit (fun p => classic_rdp p eps) points).result

/-- Python's range(start, stop, step) for a positive step: the ascending
arithmetic progression from start with the given step, strictly below stop.
(Python raises ValueError on step 0; here step 0 yields the empty list.) -/
def pyRange (start stop step : ℕ) : List ℕ :=
  List.range' start ((stop - start + step - 1) / step) step

/-- The chunk list comprehension of rdp_threadpool (src/rdplines.py line 33):
[points[i:i+chunk_size] for i in range(0, len(points), chunk_size)]. -/
def make_chunks (points : List Point) (chunk_size : ℕ) : List (List Point) :=
  (pyRange 0 points.length chunk_size).map
    (fun i => (points.drop i).take chunk_size)

/-- The source's rdp_threadpool (src/rdplines.py lines 31-36): slices the
input into contiguous chunks of chunk_size points, maps classic_rdp over
the chunks (executor.map preserves argument order regardless of task
completion order) and concatenates the per-chunk results (np.vstack).
max_workers only sizes the pool and is irrelevant to the value computed. -/
def rdp_threadpool (points : List Point) (epsilon : ℚ) (chunk_size : ℕ)
    (max_workers : ℕ := 4) : List Point :=
  let _ := max_workers
  ((make_chunks points chunk_size).map (fun c => classic_rdp c epsilon)).flatten

/-- The source's find_optimal_chunk_size (src/rdplines.py lines 65-79):
a step function of the input length alone. -/
def find_optimal_chunk_size (data : List α) : ℕ :=
  if data.length ≤ 100 then 1
  else if data.length ≤ 1000 then 4
  else if data.length ≤ 5000 then 8
  else if data.length ≤ 30000 then 16
  else 20

/-- The only exception the source's calculate_epsilon can raise: indexing
points[0] on an empty input.  The code contains no DegenerateInput check. -/
inductive PyError : Type
  | indexError
deriving DecidableEq

/-- The source's calculate_epsilon (src/rdplines.py lines 82-100), over real
coordinates.  For every point the code computes
abs((y2-y1)*xi - (x2-x1)*yi + x2*y1 - y2*x1) / ((y2-y1)*2 + (x2-x1)*2)**0.5
(note the denominator doubles the coordinate differences, it does not square
them), sums these, multiplies by the constant 0.001 and divides by x2 - x1.
The only failure is indexing points[0] of an empty list; no degeneracy check
exists, so coincident endpoints flow into the arithmetic (in NumPy float
arithmetic a zero divisor yields inf/nan rather than an exception; in this
real-number model division by zero is total). -/
noncomputable def calculate_epsilon (points : List (ℝ × ℝ)) :
    Except PyError ℝ :=
  match points with
  | [] => .error .indexError
  | p0 :: rest =>
    let plast := (p0 :: rest).getLast (List.cons_ne_nil _ _)
    let x1 := p0.1
    let y1 := p0.2
    let x2 := plast.1
    let y2 := plast.2
    let U := (p0 :: rest).map (fun pi =>
      |(y2 - y1) * pi.1 - (x2 - x1) * pi.2 + x2 * y1 - y2 * x1| /
        Real.sqrt ((y2 - y1) * 2 + (x2 - x1) * 2))
    let total_ui := U.sum
    let time_interval : ℝ := 0.001
    .ok (total_ui * time_interval / (x2 - x1))

/-- The epsilon value as the claim words it: the sum over all points of
abs((y2-y1)*xi - (x2-x1)*yi + x2*y1 - y2*x1), divided by the quirk
denominator built from the doubled difference terms of (y2-y1) and (x2-x1)
under the square root (the code's `*2 ... **0.5`, not the true segment
length), multiplied by the time-interval constant 0.001 and divided by
(x2 - x1). -/
noncomputable def epsilon_claim_formula (points : List (ℝ × ℝ)) : ℝ :=
  match points with
  | [] => 0
  | p0 :: rest =>
    let plast := (p0 :: rest).getLast (List.cons_ne_nil _ _)
    let x1 := p0.1
    let y1 := p0.2
    let x2 := plast.1
    let y2 := plast.2
    ((p0 :: rest).map (fun pi =>
        |(y2 - y1) * pi.1 - (x2 - x1) * pi.2 + x2 * y1 - y2 * x1|)).sum /
      Real.sqrt ((y2 - y1) * 2 + (x2 - x1) * 2) * 0.001 / (x2 - x1)

/-- The textbook alternative the claim rules out: the same aggregate but
normalised by the true segment length sqrt((y2-y1)^2 + (x2-x1)^2). -/
noncomputable def epsilon_true_length_formula (points : List (ℝ × ℝ)) : ℝ :=
  match points with
  | [] => 0
  | p0 :: rest =>
    let plast := (p0 :: rest).getLast (List.cons_ne_nil _ _)
    let x1 := p0.1
    let y1 := p0.2
    let x2 := plast.1
    let y2 := plast.2
    ((p0 :: rest).map (fun pi =>
        |(y2 - y1) * pi.1 - (x2 - x1) * pi.2 + x2 * y1 - y2 * x1|)).sum /
      Real.sqrt ((y2 - y1) ^ 2 + (x2 - x1) ^ 2) * 0.001 / (x2 - x1)

/-- np.mean(pts, axis=0): the column-wise mean, a pair. -/
def mean_axis0 (pts : List Point) : Point :=
  ((pts.map Prod.fst).sum / pts.length, (pts.map Prod.snd).sum / pts.length)

/-- The source's mean statistic (src/rdplines.py lines 176-177):
np.mean(np.mean(result, axis=0)[1]) - the second component of the axis-0
mean (np.mean of a scalar is that scalar). -/
def mean_stat (pts : List Point) : ℚ :=
  (mean_axis0 pts).2

/-- Row-major flattening of the point rows, as np.std applies to a 2D array
when no axis is given: [x1, y1, x2, y2, ...]. -/
def flatten_rows (pts : List Point) : List ℚ :=
  (pts.map (fun p => [p.1, p.2])).flatten

/-- Sample variance with divisor length - 1 (ddof=1, Bessel-corrected),
the square of what np.std(values, ddof=1) returns. -/
def sample_var (l : List ℚ) : ℚ :=
  ((l.map (fun v => (v - l.sum / l.length) ^ 2)).sum) / ((l.length : ℚ) - 1)

/-- The source's standard-deviation statistic (src/rdplines.py lines 180-181):
np.std(result, ddof=1) with no axis argument, i.e. the Bessel-corrected
standard deviation of all coordinates of the 2D array flattened. -/
noncomputable def std_stat (pts : List Point) : ℝ :=
  Real.sqrt ((sample_var (flatten_rows pts) : ℚ) : ℝ)

/-- The sample the source feeds to scipy's ttest_ind for each result
(src/rdplines.py lines 184-185): [point[0] for point in result], the first
(index-axis) coordinate of every point. -/
def ttest_sample (pts : List Point) : List ℚ :=
  pts.map Prod.fst

/-- The tolerance on the t statistic (src/rdplines.py line 220). -/
def tol : ℚ := 0.01

/-- The comparison verdict (src/rdplines.py lines 230-234): true (prints
that there is no significant difference) exactly when abs(t_statistic) < tol
and p_value > 0.05. -/
def comparison_not_significant (t_statistic p_value : ℚ) : Bool :=
  decide (|t_statistic| < tol) && decide (p_value > 0.05)

/-! Helper lemmas about chunking. -/

lemma length_make_chunks (l : List Point) (cs : ℕ) :
    (make_chunks l cs).length = (l.length + cs - 1) / cs := by
  simp [make_chunks, pyRange]

lemma make_chunks_get (l : List Point) (cs i : ℕ)
    (h : i < (make_chunks l cs).length) :
    (make_chunks l cs).get ⟨i, h⟩ = (l.drop (cs * i)).take cs := by
  simp [make_chunks, pyRange] at h ⊢

lemma numElems_pos_iff (n cs : ℕ) (hcs : 0 < cs) :
    0 < (n + cs - 1) / cs ↔ 0 < n := by
  constructor
  · intro h
    by_contra hn
    have : n = 0 := by omega
    subst this
    rw [Nat.div_eq_of_lt (by omega)] at h
    omega
  · intro h
    exact (Nat.le_div_iff_mul_le hcs).mpr (by omega)

lemma numElems_succ (n cs : ℕ) (hcs : 0 < cs) (hn : 0 < n) :
    (n + cs - 1) / cs = (n - 1) / cs + 1 := by
  have h : n + cs - 1 = (n - 1) + cs := by omega
  rw [h, Nat.add_div_right _ hcs]

lemma numElems_shift (n cs : ℕ) (hcs : 0 < cs) (hn : 0 < n) :
    (n - 1) / cs = (n - cs + cs - 1) / cs := by
  rcases Nat.lt_or_ge n cs with h | h
  · have h1 : n - cs = 0 := by omega
    rw [h1]
    rw [Nat.div_eq_of_lt (by omega), Nat.div_eq_of_lt (by omega)]
  · congr 1
    omega

lemma map_slice_range_shift (l : List Point) (cs : ℕ) :
    ∀ (m s : ℕ),
      (List.range' (s + cs) m cs).map (fun i => (l.drop i).take cs) =
        (List.range' s m cs).map (fun i => ((l.drop cs).drop i).take cs) := by
  intro m
  induction m with
  | zero => intro s; simp
  | succ m ih =>
    intro s
    rw [List.range'_succ, List.range'_succ]
    simp only [List.map_cons]
    congr 1
    · rw [List.drop_drop, Nat.add_comm s cs]
    · exact ih (s + cs)

lemma make_chunks_flatten (cs : ℕ) (hcs : 0 < cs) :
    ∀ (n : ℕ) (l : List Point), l.length = n →
      (make_chunks l cs).flatten = l := by
  intro n
  induction n using Nat.strong_induction_on with
  | _ n ih =>
    intro l hl
    cases l with
    | nil => simp [make_chunks, pyRange]
    | cons a tl =>
      have hn : 0 < (a :: tl).length := by simp
      unfold make_chunks pyRange
      rw [Nat.sub_zero, numElems_succ _ _ hcs hn, List.range'_succ]
      simp only [List.map_cons, List.flatten_cons, List.drop_zero]
      rw [map_slice_range_shift (a :: tl) cs _ 0, numElems_shift _ _ hcs hn]
      have hlt : ((a :: tl).drop cs).length < n := by
        simp only [List.length_drop]
        omega
      have hrec := ih ((a :: tl).drop cs).length hlt ((a :: tl).drop cs) rfl
      unfold make_chunks pyRange at hrec
      rw [Nat.sub_zero] at hrec
      simp only [List.length_drop] at hrec
      rw [hrec]
      exact List.take_append_drop cs (a :: tl)

lemma make_chunks_ne_nil (l : List Point) (cs : ℕ) (hcs : 0 < cs) :
    ∀ c ∈ make_chunks l cs, c ≠ [] := by
  intro c hc
  rw [List.mem_iff_get] at hc
  obtain ⟨⟨i, hi⟩, rfl⟩ := hc
  rw [make_chunks_get]
  have hi' : i < (l.length + cs - 1) / cs := by
    rw [← length_make_chunks l cs]
    exact hi
  have h1 : 0 < (l.length + cs - 1) / cs := by omega
  have hn : 0 < l.length := (numElems_pos_iff _ _ hcs).mp h1
  have h2 : cs * (i + 1) ≤ cs * ((l.length + cs - 1) / cs) :=
    Nat.mul_le_mul_left cs hi'
  have h3 : cs * ((l.length + cs - 1) / cs) ≤ l.length + cs - 1 :=
    Nat.mul_div_le _ _
  have h4 : cs * i < l.length := by
    have h5 : cs * (i + 1) = cs * i + cs := by ring
    omega
  intro hnil
  have := congrArg List.length hnil
  simp only [List.length_take, List.length_drop, List.length_nil] at this
  omega

lemma make_chunks_single (l : List Point) (cs : ℕ) (h1 : 0 < l.length)
    (h2 : l.length ≤ cs) : make_chunks l cs = [l] := by
  unfold make_chunks pyRange
  have hnum : (l.length - 0 + cs - 1) / cs = 1 := by
    rw [Nat.sub_zero]
    exact Nat.div_eq_of_lt_le (by omega) (by omega)
  rw [hnum]
  simp only [List.range'_one, List.map_cons, List.map_nil, List.drop_zero]
  rw [List.take_of_length_le h2]

/-! Helper lemmas about the first-argmax fold. -/

lemma faAux_snd_le : ∀ (l : List ℚ) (i bi : ℕ) (bv : ℚ),
    bv ≤ (faAux l i bi bv).2 := by
  intro l
  induction l with
  | nil => intro i bi bv; exact le_refl bv
  | cons v vs ih =>
    intro i bi bv
    unfold faAux
    by_cases h : bv < v
    · rw [if_pos h]
      exact le_of_lt (lt_of_lt_of_le h (ih (i + 1) i v))
    · rw [if_neg h]
      exact ih (i + 1) bi bv

lemma faAux_le_of_mem : ∀ (l : List ℚ) (i bi : ℕ) (bv x : ℚ),
    x ∈ l → x ≤ (faAux l i bi bv).2 := by
  intro l
  induction l with
  | nil => intro _ _ _ _ hx; cases hx
  | cons v vs ih =>
    intro i bi bv x hx
    unfold faAux
    rcases List.mem_cons.mp hx with rfl | hx'
    · by_cases h : bv < x
      · rw [if_pos h]
        exact faAux_snd_le vs (i + 1) i x
      · rw [if_neg h]
        exact le_trans (le_of_not_lt h) (faAux_snd_le vs (i + 1) bi bv)
    · by_cases h : bv < v
      · rw [if_pos h]
        exact ih (i + 1) i v x hx'
      · rw [if_neg h]
        exact ih (i + 1) bi bv x hx'

lemma firstArgmax_le_of_mem (l : List ℚ) (x : ℚ) (hx : x ∈ l) :
    x ≤ (firstArgmax l).2 := by
  cases l with
  | nil => cases hx
  | cons v vs =>
    unfold firstArgmax
    rcases List.mem_cons.mp hx with rfl | hx'
    · exact faAux_snd_le vs 1 0 x
    · exact faAux_le_of_mem vs 1 0 v x hx'

lemma faAux_fst_lt : ∀ (l : List ℚ) (i bi : ℕ) (bv : ℚ),
    bi < i → (faAux l i bi bv).1 < i + l.length := by
  intro l
  induction l with
  | nil => intro i bi bv h; simpa using h
  | cons v vs ih =>
    intro i bi bv h
    unfold faAux
    by_cases hv : bv < v
    · rw [if_pos hv]
      have := ih (i + 1) i v (Nat.lt_succ_self i)
      simp only [List.length_cons]
      omega
    · rw [if_neg hv]
      have := ih (i + 1) bi bv (Nat.lt_succ_of_lt h)
      simp only [List.length_cons]
      omega

lemma firstArgmax_fst_lt (l : List ℚ) (hl : l ≠ []) :
    (firstArgmax l).1 < l.length := by
  cases l with
  | nil => exact absurd rfl hl
  | cons v vs =>
    unfold firstArgmax
    have := faAux_fst_lt vs 1 0 v Nat.zero_lt_one
    simp only [List.length_cons]
    omega

/-! A sublist stays a sublist after dropping the last element of both. -/

lemma sublist_dropLast {l₁ l₂ : List α} (h : l₁.Sublist l₂) :
    l₁.dropLast.Sublist l₂.dropLast := by
  induction h with
  | slnil => simp
  | @cons l₁' l₂' a h ih =>
    cases l₂' with
    | nil =>
      have : l₁' = [] := List.sublist_nil.mp h
      subst this
      simp
    | cons b t =>
      rw [List.dropLast_cons₂]
      exact List.Sublist.cons a ih
  | @cons₂ l₁' l₂' a h ih =>
    cases l₁' with
    | nil => simp
    | cons c t =>
      have hne : l₂' ≠ [] := by
        intro hnil
        subst hnil
        exact absurd (List.sublist_nil.mp h) (List.cons_ne_nil c t)
      cases l₂' with
      | nil => exact absurd rfl hne
      | cons d t₂ =>
        rw [List.dropLast_cons₂, List.dropLast_cons₂]
        exact List.Sublist.cons₂ a ih

/-! Structural facts about the RDP reducer. -/

lemma rdpAux_cons3 (fuel : ℕ) (eps : ℚ) (p q r : Point) (tl : List Point) :
    rdpAux (fuel + 1) eps (p :: q :: r :: tl) =
      (let b := (p :: q :: r :: tl).getLast (List.cons_ne_nil _ _)
       let vals := ((q :: r :: tl).dropLast).map (fun m => (crossNum p b m) ^ 2)
       let k := (firstArgmax vals).1 + 1
       if eps < 0 ∨ (firstArgmax vals).2 > eps ^ 2 * segLenSq p b then
         (rdpAux fuel eps ((p :: q :: r :: tl).take (k + 1))).dropLast ++
           rdpAux fuel eps ((p :: q :: r :: tl).drop k)
       else [p, (p :: q :: r :: tl).getLast (List.cons_ne_nil _ _)]) := rfl

/-- The combined structural facts, by induction on the fuel: the output is a
subsequence of the input, keeps the first and last element, and has at least
two elements when the input does. -/
lemma rdpAux_spec (eps : ℚ) :
    ∀ (fuel : ℕ) (pts : List Point), pts.length ≤ fuel →
      (rdpAux fuel eps pts).Sublist pts ∧
      (rdpAux fuel eps pts).head? = pts.head? ∧
      (rdpAux fuel eps pts).getLast? = pts.getLast? ∧
      (2 ≤ pts.length → 2 ≤ (rdpAux fuel eps pts).length) := by
  intro fuel
  induction fuel with
  | zero =>
    intro pts h
    have hnil : pts = [] := List.eq_nil_of_length_eq_zero (Nat.le_zero.mp h)
    subst hnil
    refine ⟨List.Sublist.refl _, rfl, rfl, ?_⟩
    intro h2
    simp at h2
  | succ fuel ih =>
    intro pts h
    rcases pts with _ | ⟨p, _ | ⟨q, _ | ⟨r, tl⟩⟩⟩
    · exact ⟨by simp [rdpAux], rfl, rfl, by intro h2; simp at h2⟩
    · exact ⟨by simp [rdpAux], rfl, rfl, by intro h2; simp at h2⟩
    · exact ⟨by simp [rdpAux], rfl, rfl, by intro _; simp [rdpAux]⟩
    · rw [rdpAux_cons3]
      simp only []
      set b := (p :: q :: r :: tl).getLast (List.cons_ne_nil _ _) with hbdef
      set vals :=
        ((q :: r :: tl).dropLast).map (fun m => (crossNum p b m) ^ 2) with hvals
      set k0 := (firstArgmax vals).1 with hk0
      have hvlen : vals.length = tl.length + 1 := by
        rw [hvals]
        simp
      have hk0lt : k0 < tl.length + 1 := by
        have hvne : vals ≠ [] := by
          apply List.ne_nil_of_length_pos
          omega
        have := firstArgmax_fst_lt vals hvne
        omega
      have hlen3 : (p :: q :: r :: tl).length = tl.length + 3 := by simp
      have hbmem : b ∈ q :: r :: tl := by
        rw [hbdef, List.getLast_cons (List.cons_ne_nil _ _)]
        exact List.getLast_mem _
      by_cases hcond : eps < 0 ∨ (firstArgmax vals).2 > eps ^ 2 * segLenSq p b
      · rw [if_pos hcond]
        have hfuel : tl.length + 2 ≤ fuel := by omega
        have ht1len : ((p :: q :: r :: tl).take (k0 + 1 + 1)).length = k0 + 2 := by
          rw [List.length_take]
          omega
        have ht2len : ((p :: q :: r :: tl).drop (k0 + 1)).length =
            tl.length + 2 - k0 := by
          rw [List.length_drop]
          omega
        have IH1 := ih ((p :: q :: r :: tl).take (k0 + 1 + 1)) (by omega)
        have IH2 := ih ((p :: q :: r :: tl).drop (k0 + 1)) (by omega)
        have hr1len : 2 ≤ (rdpAux fuel eps
            ((p :: q :: r :: tl).take (k0 + 1 + 1))).length :=
          IH1.2.2.2 (by omega)
        have hr2len : 2 ≤ (rdpAux fuel eps
            ((p :: q :: r :: tl).drop (k0 + 1))).length :=
          IH2.2.2.2 (by omega)
        have ht1dl : ((p :: q :: r :: tl).take (k0 + 1 + 1)).dropLast =
            (p :: q :: r :: tl).take (k0 + 1) := by
          rw [List.dropLast_eq_take, List.take_take, ht1len]
          have : min (k0 + 2 - 1) (k0 + 1 + 1) = k0 + 1 := by omega
          rw [this]
        refine ⟨?_, ?_, ?_, ?_⟩
        · have s1 := sublist_dropLast IH1.1
          rw [ht1dl] at s1
          have s2 := IH2.1
          have := s1.append s2
          rwa [List.take_append_drop] at this
        · rw [List.head?_append]
          have h1 : (rdpAux fuel eps
              ((p :: q :: r :: tl).take (k0 + 1 + 1))).dropLast.head? = some p := by
            rw [List.head?_dropLast, if_pos (by omega)]
            rw [IH1.2.1, List.head?_take, if_neg (by omega)]
            rfl
          rw [h1, Option.or_some]
          rfl
        · rw [List.getLast?_append]
          have h2 : (rdpAux fuel eps
              ((p :: q :: r :: tl).drop (k0 + 1))).getLast? =
              (p :: q :: r :: tl).getLast? := by
            rw [IH2.2.2.1, List.getLast?_drop, if_neg (by omega)]
          rw [h2, List.getLast?_eq_getLast _ (List.cons_ne_nil _ _),
            Option.or_some]
        · intro _
          rw [List.length_append, List.length_dropLast]
          omega
      · rw [if_neg hcond]
        refine ⟨?_, rfl, ?_, ?_⟩
        · exact List.Sublist.cons₂ p (List.singleton_sublist.mpr hbmem)
        · rw [List.getLast?_eq_getLast _ (List.cons_ne_nil _ _)]
          rfl
        · intro _
          simp

/-! The ingredients of claim C9: with epsilon 0 and no collinear triple the
reducer is the identity, and any dropped point is collinear with a chord
between two input points. -/

/-- No point of the list lies on the line through two other points of the
list, taken in order: for every ordered triple a, b, c occurring in the list
(as the sublist [a, b, c]) the middle point is off the chord a-c. -/
def GeneralPosition (pts : List Point) : Prop :=
  ∀ a b c : Point, [a, b, c].Sublist pts → crossNum a c b ≠ 0

lemma generalPosition_mono {pts pts' : List Point} (h : pts'.Sublist pts)
    (hgp : GeneralPosition pts) : GeneralPosition pts' :=
  fun a b c habc => hgp a b c (habc.trans h)

lemma rdpAux_zero_of_generalPosition :
    ∀ (fuel : ℕ) (pts : List Point), pts.length ≤ fuel →
      GeneralPosition pts → rdpAux fuel 0 pts = pts := by
  intro fuel
  induction fuel with
  | zero => intro pts _ _; rfl
  | succ fuel ih =>
    intro pts h hgp
    rcases pts with _ | ⟨p, _ | ⟨q, _ | ⟨r, tl⟩⟩⟩
    · rfl
    · rfl
    · rfl
    · rw [rdpAux_cons3]
      simp only []
      set b := (p :: q :: r :: tl).getLast (List.cons_ne_nil _ _) with hbdef
      set vals :=
        ((q :: r :: tl).dropLast).map (fun m => (crossNum p b m) ^ 2) with hvals
      set k0 := (firstArgmax vals).1 with hk0
      have hvlen : vals.length = tl.length + 1 := by
        rw [hvals]
        simp
      have hk0lt : k0 < tl.length + 1 := by
        have hvne : vals ≠ [] := List.ne_nil_of_length_pos (by omega)
        have := firstArgmax_fst_lt vals hvne
        omega
      have hbmem : b ∈ r :: tl := by
        rw [hbdef, List.getLast_cons (List.cons_ne_nil _ _),
          List.getLast_cons (List.cons_ne_nil _ _)]
        exact List.getLast_mem _
      have hqmem : (crossNum p b q) ^ 2 ∈ vals := by
        rw [hvals]
        apply List.mem_map_of_mem
        rw [List.dropLast_cons₂]
        exact List.mem_cons_self _ _
      have hcross : crossNum p b q ≠ 0 := by
        apply hgp
        exact List.Sublist.cons₂ p (List.Sublist.cons₂ q
          (List.singleton_sublist.mpr hbmem))
      have hmaxpos : (0 : ℚ) < (firstArgmax vals).2 :=
        lt_of_lt_of_le (sq_pos_of_ne_zero hcross)
          (firstArgmax_le_of_mem vals _ hqmem)
      have hcond : (0 : ℚ) < 0 ∨ (firstArgmax vals).2 > 0 ^ 2 * segLenSq p b := by
        right
        simpa using hmaxpos
      rw [if_pos hcond]
      have hgp1 : GeneralPosition ((p :: q :: r :: tl).take (k0 + 1 + 1)) :=
        generalPosition_mono (List.take_sublist _ _) hgp
      have hgp2 : GeneralPosition ((p :: q :: r :: tl).drop (k0 + 1)) :=
        generalPosition_mono (List.drop_sublist _ _) hgp
      have hlen3 : (p :: q :: r :: tl).length = tl.length + 3 := by simp
      have e1 := ih ((p :: q :: r :: tl).take (k0 + 1 + 1))
        (by rw [List.length_take]; omega) hgp1
      have e2 := ih ((p :: q :: r :: tl).drop (k0 + 1))
        (by rw [List.length_drop]; omega) hgp2
      rw [e1, e2]
      have ht1dl : ((p :: q :: r :: tl).take (k0 + 1 + 1)).dropLast =
          (p :: q :: r :: tl).take (k0 + 1) := by
        rw [List.dropLast_eq_take, List.take_take, List.length_take]
        have : min (min (k0 + 1 + 1) (tl.length + 3) - 1) (k0 + 1 + 1) =
            k0 + 1 := by omega
        rw [hlen3, this]
      rw [ht1dl, List.take_append_drop]

lemma rdpAux_zero_dropped :
    ∀ (fuel : ℕ) (pts : List Point) (x : Point), pts.length ≤ fuel →
      x ∈ pts → x ∉ rdpAux fuel 0 pts →
      ∃ a c : Point, ([a, x, c] : List Point).Sublist pts ∧ crossNum a c x = 0 := by
  intro fuel
  induction fuel with
  | zero =>
    intro pts x _ hx hnot
    exact absurd hx hnot
  | succ fuel ih =>
    intro pts x h hx hnot
    rcases pts with _ | ⟨p, _ | ⟨q, _ | ⟨r, tl⟩⟩⟩
    · exact absurd hx hnot
    · exact absurd hx hnot
    · exact absurd hx hnot
    · rw [rdpAux_cons3] at hnot
      simp only [] at hnot
      set b := (p :: q :: r :: tl).getLast (List.cons_ne_nil _ _) with hbdef
      set vals :=
        ((q :: r :: tl).dropLast).map (fun m => (crossNum p b m) ^ 2) with hvals
      set k0 := (firstArgmax vals).1 with hk0
      have hvlen : vals.length = tl.length + 1 := by
        rw [hvals]
        simp
      have hk0lt : k0 < tl.length + 1 := by
        have hvne : vals ≠ [] := List.ne_nil_of_length_pos (by omega)
        have := firstArgmax_fst_lt vals hvne
        omega
      have hlen3 : (p :: q :: r :: tl).length = tl.length + 3 := by simp
      by_cases hcond : (0 : ℚ) < 0 ∨ (firstArgmax vals).2 > 0 ^ 2 * segLenSq p b
      · rw [if_pos hcond] at hnot
        have hfuel : tl.length + 2 ≤ fuel := by omega
        have spec1 := rdpAux_spec 0 fuel ((p :: q :: r :: tl).take (k0 + 1 + 1))
          (by rw [List.length_take]; omega)
        have spec2 := rdpAux_spec 0 fuel ((p :: q :: r :: tl).drop (k0 + 1))
          (by rw [List.length_drop]; omega)
        have hnot1 : x ∉ (rdpAux fuel 0
            ((p :: q :: r :: tl).take (k0 + 1 + 1))).dropLast := by
          intro hmem
          exact hnot (List.mem_append_left _ hmem)
        have hnot2 : x ∉ rdpAux fuel 0 ((p :: q :: r :: tl).drop (k0 + 1)) := by
          intro hmem
          exact hnot (List.mem_append_right _ hmem)
        have hr1len : 2 ≤ (rdpAux fuel 0
            ((p :: q :: r :: tl).take (k0 + 1 + 1))).length :=
          spec1.2.2.2 (by rw [List.length_take]; omega)
        have hr1ne : rdpAux fuel 0 ((p :: q :: r :: tl).take (k0 + 1 + 1)) ≠ [] :=
          List.ne_nil_of_length_pos (by omega)
        -- the last element of the left result is the head of the right result
        have hglue : (rdpAux fuel 0
            ((p :: q :: r :: tl).take (k0 + 1 + 1))).getLast? =
            (rdpAux fuel 0 ((p :: q :: r :: tl).drop (k0 + 1))).head? := by
          rw [spec1.2.2.1, spec2.2.1, List.getLast?_take, List.head?_drop,
            if_neg (by omega)]
          have h11 : k0 + 1 + 1 - 1 = k0 + 1 := by omega
          have hlt : k0 + 1 < (p :: q :: r :: tl).length := by omega
          rw [h11, List.getElem?_eq_getElem hlt, Option.or_some]
        have hxnotr1 : x ∉ rdpAux fuel 0 ((p :: q :: r :: tl).take (k0 + 1 + 1)) := by
          intro hmem
          have hsplit := (List.dropLast_append_getLast hr1ne).symm
          rw [hsplit] at hmem
          rcases List.mem_append.mp hmem with hmem1 | hmem2
          · exact hnot1 hmem1
          · have hxlast : x = (rdpAux fuel 0
                ((p :: q :: r :: tl).take (k0 + 1 + 1))).getLast hr1ne := by
              simpa using hmem2
            have hhead : (rdpAux fuel 0
                ((p :: q :: r :: tl).drop (k0 + 1))).head? = some x := by
              rw [← hglue, hxlast]
              exact (List.getLast?_eq_getLast _ hr1ne)
            exact hnot2 (List.mem_of_mem_head? (by rw [hhead]; exact rfl))
        rcases List.mem_append.mp
            ((List.take_append_drop (k0 + 1) (p :: q :: r :: tl)) ▸ hx) with
          hxt | hxd
        · have hxt1 : x ∈ (p :: q :: r :: tl).take (k0 + 1 + 1) :=
            (List.take_sublist_take_left _ (by omega)).mem hxt
          rcases ih _ x (by rw [List.length_take]; omega) hxt1 hxnotr1 with
            ⟨a, c, hsub, hcross⟩
          exact ⟨a, c, hsub.trans (List.take_sublist _ _), hcross⟩
        · rcases ih _ x (by rw [List.length_drop]; omega) hxd hnot2 with
            ⟨a, c, hsub, hcross⟩
          exact ⟨a, c, hsub.trans (List.drop_sublist _ _), hcross⟩
      · rw [if_neg hcond] at hnot
        push_neg at hcond
        have hmle : (firstArgmax vals).2 ≤ 0 := by
          have := hcond.2
          simpa using this
        have hxq : x ∈ q :: r :: tl := by
          rcases List.mem_cons.mp hx with rfl | hmem
          · exact absurd (List.mem_cons_self _ _) hnot
          · exact hmem
        have hxne_b : x ≠ b := by
          intro hxb
          subst hxb
          exact hnot (by simp)
        have hxint : x ∈ (q :: r :: tl).dropLast := by
          have hsplit := (List.dropLast_append_getLast
            (List.cons_ne_nil q (r :: tl))).symm
          rw [hsplit] at hxq
          rcases List.mem_append.mp hxq with h1 | h2
          · exact h1
          · exfalso
            apply hxne_b
            have hxg : x = (q :: r :: tl).getLast (List.cons_ne_nil _ _) := by
              simpa using h2
            rw [hxg, hbdef]
            exact (List.getLast_cons (List.cons_ne_nil _ _)).symm
        have hsq : (crossNum p b x) ^ 2 ∈ vals := by
          rw [hvals]
          exact List.mem_map_of_mem _ hxint
        have hle := firstArgmax_le_of_mem vals _ hsq
        have hzero : (crossNum p b x) ^ 2 = 0 :=
          le_antisymm (le_trans hle hmle) (sq_nonneg _)
        -- x sits strictly between p and b in the list: [p, x, b] <+ pts
        have hbq : b = (q :: r :: tl).getLast (List.cons_ne_nil _ _) := by
          rw [hbdef]
          exact List.getLast_cons _
        have hsubxb : ([x, b] : List Point).Sublist (q :: r :: tl) := by
          have hs : ([x] ++ [b] : List Point).Sublist
              ((q :: r :: tl).dropLast ++
                [(q :: r :: tl).getLast (List.cons_ne_nil _ _)]) := by
            apply List.Sublist.append
            · exact List.singleton_sublist.mpr hxint
            · rw [hbq]
          rwa [List.dropLast_append_getLast (List.cons_ne_nil q (r :: tl))] at hs
        exact ⟨p, b, List.Sublist.cons₂ p hsubxb, sq_eq_zero_iff.mp hzero⟩

/-! The claim theorems. -/

/-- C1: for every polyline of length at least 2 and every epsilon at least 0,
classic_rdp returns an ordered subsequence of the input (no point invented,
moved or duplicated), keeping the first and the last input point unmodified,
with output length at most the input length. -/
theorem C1_classic_rdp_subsequence (pts : List Point) (eps : ℚ)
    (_hlen : 2 ≤ pts.length) (_heps : 0 ≤ eps) :
    (classic_rdp pts eps).Sublist pts ∧
    (classic_rdp pts eps).head? = pts.head? ∧
    (classic_rdp pts eps).getLast? = pts.getLast? ∧
    (classic_rdp pts eps).length ≤ pts.length := by
  have h := rdpAux_spec eps pts.length pts (le_refl _)
  exact ⟨h.1, h.2.1, h.2.2.1, h.1.length_le⟩

/-- Witness for C1 at a concrete three-point spike with epsilon 1. -/
theorem C1_witness :
    2 ≤ ([((0 : ℚ), (0 : ℚ)), (1, 5), (2, 0)] : List Point).length ∧
    (0 : ℚ) ≤ 1 ∧
    ((classic_rdp [((0 : ℚ), (0 : ℚ)), (1, 5), (2, 0)] 1).Sublist
        [((0 : ℚ), (0 : ℚ)), (1, 5), (2, 0)] ∧
      (classic_rdp [((0 : ℚ), (0 : ℚ)), (1, 5), (2, 0)] 1).head? =
        ([((0 : ℚ), (0 : ℚ)), (1, 5), (2, 0)] : List Point).head? ∧
      (classic_rdp [((0 : ℚ), (0 : ℚ)), (1, 5), (2, 0)] 1).getLast? =
        ([((0 : ℚ), (0 : ℚ)), (1, 5), (2, 0)] : List Point).getLast? ∧
      (classic_rdp [((0 : ℚ), (0 : ℚ)), (1, 5), (2, 0)] 1).length ≤
        ([((0 : ℚ), (0 : ℚ)), (1, 5), (2, 0)] : List Point).length) :=
  ⟨by decide, by decide,
    C1_classic_rdp_subsequence _ _ (by decide) (by decide)⟩

/-- C2: for every polyline, epsilon and chunk size at least 1, rdp_threadpool
is exactly the concatenation, in chunk-index order, of classic_rdp on each
contiguous chunk with the shared epsilon and no boundary de-duplication;
the result does not depend on max_workers (task completion order is absorbed
by the order-preserving executor.map); and with chunk_size at least the
input length it equals classic_rdp on the whole input. -/
theorem C2_rdp_threadpool_concat (pts : List Point) (eps : ℚ)
    (cs mw mw' : ℕ) (hlen : 2 ≤ pts.length) (_hcs : 1 ≤ cs) :
    rdp_threadpool pts eps cs mw =
      ((make_chunks pts cs).map (fun c => classic_rdp c eps)).flatten ∧
    rdp_threadpool pts eps cs mw = rdp_threadpool pts eps cs mw' ∧
    (pts.length ≤ cs → rdp_threadpool pts eps cs mw = classic_rdp pts eps) := by
  refine ⟨rfl, rfl, ?_⟩
  intro hge
  unfold rdp_threadpool
  rw [make_chunks_single pts cs (by omega) hge]
  simp

/-- Witness for C2 at a concrete five-point polyline, chunk size 7 covering
the whole input, pools of width 4 and 1. -/
theorem C2_witness :
    2 ≤ ([((0 : ℚ), (0 : ℚ)), (1, 1), (2, 0), (3, 1), (4, 0)] :
        List Point).length ∧
    1 ≤ 7 ∧
    (rdp_threadpool [((0 : ℚ), (0 : ℚ)), (1, 1), (2, 0), (3, 1), (4, 0)]
        (1/2) 7 4 =
      ((make_chunks [((0 : ℚ), (0 : ℚ)), (1, 1), (2, 0), (3, 1), (4, 0)] 7).map
        (fun c => classic_rdp c (1/2))).flatten ∧
    rdp_threadpool [((0 : ℚ), (0 : ℚ)), (1, 1), (2, 0), (3, 1), (4, 0)]
        (1/2) 7 4 =
      rdp_threadpool [((0 : ℚ), (0 : ℚ)), (1, 1), (2, 0), (3, 1), (4, 0)]
        (1/2) 7 1 ∧
    (([((0 : ℚ), (0 : ℚ)), (1, 1), (2, 0), (3, 1), (4, 0)] :
        List Point).length ≤ 7 →
      rdp_threadpool [((0 : ℚ), (0 : ℚ)), (1, 1), (2, 0), (3, 1), (4, 0)]
          (1/2) 7 4 =
        classic_rdp [((0 : ℚ), (0 : ℚ)), (1, 1), (2, 0), (3, 1), (4, 0)]
          (1/2))) :=
  ⟨by decide, by decide,
    C2_rdp_threadpool_concat _ _ 7 4 1 (by decide) (by decide)⟩

/-- C10: parallel_rdp, the single-shot submission of the whole input to the
process-wide width-2 executor, returns exactly classic_rdp of the same
arguments: the pool indirection performs no subdivision and changes nothing
about the output. -/
theorem C10_parallel_rdp_eq (pts : List Point) (eps : ℚ) :
    parallel_rdp pts eps = classic_rdp pts eps := rfl

/-- C5: find_optimal_chunk_size is exactly the step table of the source
(1 up to 100 points, 4 up to 1000, 8 up to 5000, 16 up to 30000, else 20),
is never 0, and never produces an empty chunk when its value is used as the
slicing step. -/
theorem C5_find_optimal_chunk_size (data : List Point) :
    (find_optimal_chunk_size data = 1 ↔ data.length ≤ 100) ∧
    (find_optimal_chunk_size data = 4 ↔
      100 < data.length ∧ data.length ≤ 1000) ∧
    (find_optimal_chunk_size data = 8 ↔
      1000 < data.length ∧ data.length ≤ 5000) ∧
    (find_optimal_chunk_size data = 16 ↔
      5000 < data.length ∧ data.length ≤ 30000) ∧
    (find_optimal_chunk_size data = 20 ↔ 30000 < data.length) ∧
    0 < find_optimal_chunk_size data ∧
    ∀ c ∈ make_chunks data (find_optimal_chunk_size data), c ≠ [] := by
  have hpos : 0 < find_optimal_chunk_size data := by
    unfold find_optimal_chunk_size
    split_ifs <;> omega
  refine ⟨?_, ?_, ?_, ?_, ?_, hpos, make_chunks_ne_nil _ _ hpos⟩ <;>
    unfold find_optimal_chunk_size <;> split_ifs <;> omega

/-- Witness for C5 at a concrete three-point polyline: the first chunk is a
member of the chunk list and is nonempty. -/
theorem C5_witness :
    ([((0 : ℚ), (0 : ℚ))] ∈
      make_chunks [((0 : ℚ), (0 : ℚ)), (1, 0), (2, 0)]
        (find_optimal_chunk_size
          ([((0 : ℚ), (0 : ℚ)), (1, 0), (2, 0)] : List Point))) ∧
    ([((0 : ℚ), (0 : ℚ))] : List Point) ≠ [] :=
  ⟨by decide,
    (C5_find_optimal_chunk_size [((0 : ℚ), (0 : ℚ)), (1, 0), (2, 0)]).2.2.2.2.2.2
      _ (by decide)⟩

/-- A 150-point polyline, used to refute the chunk-count reading of the
planner value: the planner returns 4 for it. -/
def c6pts : List Point := (List.range 150).map (fun (i : ℕ) => ((i : ℚ), 0))

/-- C6 counterexample: on a 150-point polyline the planner value is 4, but
the partition used by the parallel reducer has 38 chunks (each of length 4,
the first chunk in particular), not 4 chunks of length 38: the value is a
chunk length, not a chunk count. -/
theorem C6_counterexample :
    find_optimal_chunk_size c6pts = 4 ∧
    (make_chunks c6pts (find_optimal_chunk_size c6pts)).length = 38 ∧
    (make_chunks c6pts (find_optimal_chunk_size c6pts)).length ≠
      find_optimal_chunk_size c6pts ∧
    (make_chunks c6pts (find_optimal_chunk_size c6pts)).head?.map List.length =
      some 4 := by
  have hlen : c6pts.length = 150 := by
    simp [c6pts]
  have hf : find_optimal_chunk_size c6pts = 4 := by
    unfold find_optimal_chunk_size
    rw [hlen]
    norm_num
  have hcl : (make_chunks c6pts (find_optimal_chunk_size c6pts)).length = 38 := by
    rw [hf, length_make_chunks, hlen]
  refine ⟨hf, hcl, by omega, ?_⟩
  have h0 : 0 < (make_chunks c6pts (find_optimal_chunk_size c6pts)).length := by
    omega
  rw [List.head?_eq_getElem?, List.getElem?_eq_getElem h0]
  have hget := make_chunks_get c6pts (find_optimal_chunk_size c6pts) 0 h0
  rw [List.get_eq_getElem] at hget
  rw [hget, hf]
  simp [List.length_take, hlen]

/-- C6 amended: the Chunk Planner's value is interpreted by the parallel
reducer as a chunk length (slicing step): the partition has
ceil(n / value) chunks, chunk i being points[value*i : value*i + value],
and concatenating the chunks restores the input exactly. -/
theorem C6_amended (l : List Point) :
    0 < find_optimal_chunk_size l ∧
    (make_chunks l (find_optimal_chunk_size l)).length =
      (l.length + find_optimal_chunk_size l - 1) / find_optimal_chunk_size l ∧
    (∀ (i : ℕ) (h : i < (make_chunks l (find_optimal_chunk_size l)).length),
      (make_chunks l (find_optimal_chunk_size l)).get ⟨i, h⟩ =
        (l.drop (find_optimal_chunk_size l * i)).take
          (find_optimal_chunk_size l)) ∧
    (make_chunks l (find_optimal_chunk_size l)).flatten = l := by
  have hpos : 0 < find_optimal_chunk_size l := by
    unfold find_optimal_chunk_size
    split_ifs <;> omega
  exact ⟨hpos, length_make_chunks _ _, fun i h => make_chunks_get _ _ i h,
    make_chunks_flatten _ hpos l.length l rfl⟩

/-- Witness for C6 amended at a concrete three-point polyline and chunk
index 0. -/
theorem C6_amended_witness :
    0 < (make_chunks [((0 : ℚ), (0 : ℚ)), (1, 0), (2, 1)]
      (find_optimal_chunk_size
        ([((0 : ℚ), (0 : ℚ)), (1, 0), (2, 1)] : List Point))).length ∧
    (make_chunks [((0 : ℚ), (0 : ℚ)), (1, 0), (2, 1)]
      (find_optimal_chunk_size
        ([((0 : ℚ), (0 : ℚ)), (1, 0), (2, 1)] : List Point))).get
        ⟨0, by decide⟩ =
      (([((0 : ℚ), (0 : ℚ)), (1, 0), (2, 1)] : List Point).drop
        (find_optimal_chunk_size
          ([((0 : ℚ), (0 : ℚ)), (1, 0), (2, 1)] : List Point) * 0)).take
        (find_optimal_chunk_size
          ([((0 : ℚ), (0 : ℚ)), (1, 0), (2, 1)] : List Point)) :=
  ⟨by decide,
    (C6_amended [((0 : ℚ), (0 : ℚ)), (1, 0), (2, 1)]).2.2.1 0 (by decide)⟩

/-- C7: the comparison verdict declares the two lines not significantly
different exactly when the absolute t statistic is strictly below the
tolerance 0.01 and the p value is strictly above 0.05; both conditions are
required, and otherwise a significant difference is reported. -/
theorem C7_verdict_conjunction (t_statistic p_value : ℚ) :
    (comparison_not_significant t_statistic p_value = true ↔
      (|t_statistic| < 0.01 ∧ p_value > 0.05)) ∧
    (comparison_not_significant t_statistic p_value = false ↔
      ¬(|t_statistic| < 0.01 ∧ p_value > 0.05)) := by
  have h1 : comparison_not_significant t_statistic p_value = true ↔
      (|t_statistic| < 0.01 ∧ p_value > 0.05) := by
    unfold comparison_not_significant tol
    rw [Bool.and_eq_true, decide_eq_true_eq, decide_eq_true_eq]
  refine ⟨h1, ?_⟩
  rw [← h1]
  cases comparison_not_significant t_statistic p_value <;> simp

/-- C9: with epsilon 0 the reducer is the identity on every polyline in
general position (no point exactly collinear with a chord through two other
points), and a point can be dropped at epsilon 0 only when it lies strictly
between two input points in order ([a, x, b] is a sublist of the input, so
a and x and b occupy three distinct positions) and is exactly collinear with
the chord a-b (in the recursion, the chord of the step that dropped it);
the comparison is strict. -/
theorem C9_epsilon_zero (pts : List Point) :
    (GeneralPosition pts → classic_rdp pts 0 = pts) ∧
    (∀ x ∈ pts, x ∉ classic_rdp pts 0 →
      ∃ a b : Point, ([a, x, b] : List Point).Sublist pts ∧
        crossNum a b x = 0) := by
  constructor
  · intro hgp
    exact rdpAux_zero_of_generalPosition pts.length pts (le_refl _) hgp
  · intro x hx hnot
    exact rdpAux_zero_dropped pts.length pts x (le_refl _) hx hnot

/-- Witness for C9: a three-point polyline in general position is returned
unchanged at epsilon 0, and the middle point of an exactly collinear
three-point polyline is dropped, lies in order between two input points and
is collinear with their chord. -/
theorem C9_witness :
    (GeneralPosition [((0 : ℚ), (0 : ℚ)), (1, 1), (3, 2)] ∧
      classic_rdp [((0 : ℚ), (0 : ℚ)), (1, 1), (3, 2)] 0 =
        [((0 : ℚ), (0 : ℚ)), (1, 1), (3, 2)]) ∧
    (((1 : ℚ), (1 : ℚ)) ∈ ([((0 : ℚ), (0 : ℚ)), (1, 1), (2, 2)] : List Point) ∧
      ((1 : ℚ), (1 : ℚ)) ∉ classic_rdp [((0 : ℚ), (0 : ℚ)), (1, 1), (2, 2)] 0 ∧
      ∃ a b : Point,
        ([a, ((1 : ℚ), (1 : ℚ)), b] : List Point).Sublist
          [((0 : ℚ), (0 : ℚ)), (1, 1), (2, 2)] ∧
        crossNum a b ((1 : ℚ), (1 : ℚ)) = 0) := by
  have hgp : GeneralPosition [((0 : ℚ), (0 : ℚ)), (1, 1), (3, 2)] := by
    intro a b c h
    have h3 : [a, b, c] = [((0 : ℚ), (0 : ℚ)), (1, 1), (3, 2)] :=
      h.eq_of_length (by simp)
    simp only [List.cons.injEq, and_true] at h3
    obtain ⟨rfl, rfl, rfl, -⟩ := h3
    norm_num [crossNum]
  have hmem : ((1 : ℚ), (1 : ℚ)) ∈
      ([((0 : ℚ), (0 : ℚ)), (1, 1), (2, 2)] : List Point) := by decide
  have hnot : ((1 : ℚ), (1 : ℚ)) ∉
      classic_rdp [((0 : ℚ), (0 : ℚ)), (1, 1), (2, 2)] 0 := by
    norm_num [classic_rdp, rdpAux, firstArgmax, faAux, crossNum, segLenSq,
      List.getLast, Prod.ext_iff]
  exact ⟨⟨hgp, (C9_epsilon_zero _).1 hgp⟩, hmem, hnot,
    (C9_epsilon_zero _).2 _ hmem hnot⟩

lemma flatten_rows_length (pts : List Point) :
    (flatten_rows pts).length = 2 * pts.length := by
  induction pts with
  | nil => rfl
  | cons p t ih =>
    simp [flatten_rows] at ih ⊢
    omega

lemma flatten_rows_sum (pts : List Point) :
    (flatten_rows pts).sum = (pts.map Prod.fst).sum + (pts.map Prod.snd).sum := by
  induction pts with
  | nil => simp [flatten_rows]
  | cons p t ih =>
    simp only [flatten_rows, List.map_cons, List.flatten_cons, List.sum_append,
      List.sum_cons, List.sum_nil] at ih ⊢
    rw [ih]
    ring

/-- The two-point polyline [(0,0), (1,2)], on which the flattened standard
deviation differs from the value-axis one. -/
def c8pts : List Point := [(0, 0), (1, 2)]

/-- C8 counterexample: on the concrete result [(0,0), (1,2)] the program's
standard deviation (np.std of the whole 2D array flattened, ddof=1) is
sqrt(11/12), not the value-axis sample deviation sqrt(2), and the sample the
program hands to the t-test is the index-axis coordinates [0, 1], not the
value-axis coordinates [0, 2]. -/
theorem C8_counterexample :
    std_stat c8pts ≠ Real.sqrt (((sample_var (c8pts.map Prod.snd) : ℚ) : ℝ)) ∧
    ttest_sample c8pts ≠ c8pts.map Prod.snd := by
  constructor
  · have h1 : sample_var (flatten_rows c8pts) = 11 / 12 := by
      norm_num [sample_var, flatten_rows, c8pts]
    have h2 : sample_var (c8pts.map Prod.snd) = 2 := by
      norm_num [sample_var, c8pts]
    unfold std_stat
    rw [h1, h2]
    have hlt : Real.sqrt (((11 / 12 : ℚ) : ℝ)) < Real.sqrt (((2 : ℚ) : ℝ)) := by
      apply Real.sqrt_lt_sqrt
      · push_cast
        norm_num
      · push_cast
        norm_num
    exact ne_of_lt hlt
  · norm_num [ttest_sample, c8pts]

/-- C8 amended: the mean statistic is the mean of the value-axis (second)
coordinates, as claimed; but the standard-deviation statistic is the
Bessel-corrected (ddof=1) deviation of the 2n flattened coordinates of both
axes, and the t-test sample of each result is its index-axis (first)
coordinates. -/
theorem C8_amended (pts : List Point) :
    mean_stat pts = (pts.map Prod.snd).sum / pts.length ∧
    std_stat pts = Real.sqrt (((sample_var (flatten_rows pts) : ℚ) : ℝ)) ∧
    (flatten_rows pts).length = 2 * pts.length ∧
    (flatten_rows pts).sum = (pts.map Prod.fst).sum + (pts.map Prod.snd).sum ∧
    ttest_sample pts = pts.map Prod.fst :=
  ⟨rfl, rfl, flatten_rows_length pts, flatten_rows_sum pts, rfl⟩

/-- C4 counterexample: on the two-point input [(5,0), (5,1)] whose first and
last x-coordinates coincide (x2 == x1), calculate_epsilon does not fail at
all: it returns a value (the claim says it must fail with DegenerateInput;
in NumPy float arithmetic the returned value is non-finite). -/
theorem C4_counterexample :
    ∃ v : ℝ, calculate_epsilon [((5 : ℝ), (0 : ℝ)), ((5 : ℝ), (1 : ℝ))] =
      Except.ok v :=
  ⟨_, rfl⟩

/-- C4 amended: calculate_epsilon performs no degeneracy check: it fails
(with an IndexError from points[0]) exactly on the empty input, and returns
a value on every nonempty input, including single points and inputs with
x2 == x1 (where NumPy float arithmetic produces a non-finite value rather
than an error, and the value can be negative when x2 < x1). -/
theorem C4_amended (pts : List (ℝ × ℝ)) :
    (calculate_epsilon pts = Except.error PyError.indexError ↔ pts = []) ∧
    (pts ≠ [] → ∃ v : ℝ, calculate_epsilon pts = Except.ok v) := by
  cases pts with
  | nil => exact ⟨⟨fun _ => rfl, fun _ => rfl⟩, fun hne => absurd rfl hne⟩
  | cons p rest =>
    constructor
    · simp [calculate_epsilon]
    · intro _
      exact ⟨_, rfl⟩

/-- Witness for C4 amended at the one-point input [(5,0)]. -/
theorem C4_amended_witness :
    ([((5 : ℝ), (0 : ℝ))] : List (ℝ × ℝ)) ≠ [] ∧
    ∃ v : ℝ, calculate_epsilon [((5 : ℝ), (0 : ℝ))] = Except.ok v :=
  ⟨List.cons_ne_nil _ _, (C4_amended _).2 (List.cons_ne_nil _ _)⟩

lemma list_map_div_sum (l : List (ℝ × ℝ)) (f : ℝ × ℝ → ℝ) (d : ℝ) :
    (l.map (fun x => f x / d)).sum = (l.map f).sum / d := by
  induction l with
  | nil => simp
  | cons a t ih => simp [ih, add_div]

/-- The three-point polyline [(0,0), (1,1), (2,3)], on which the quirk
denominator sqrt((y2-y1)*2 + (x2-x1)*2) = sqrt 10 differs from the true
segment length sqrt((y2-y1)^2 + (x2-x1)^2) = sqrt 13. -/
noncomputable def epsC3pts : List (ℝ × ℝ) := [(0, 0), (1, 1), (2, 3)]

/-- C3: for every polyline with at least two points whose first point is
(x1,y1) and last point (x2,y2) with x2 different from x1, calculate_epsilon
returns the sum over all points of abs((y2-y1)*xi - (x2-x1)*yi + x2*y1 -
y2*x1) divided by the quirk denominator sqrt((y2-y1)*2 + (x2-x1)*2) built
from the doubled difference terms, multiplied by the fixed time-interval
constant 0.001 and divided by (x2 - x1); and that quirk denominator is not
the true segment length: at the concrete polyline epsC3pts the two
normalisations give different epsilon values. -/
theorem C3_calculate_epsilon_formula (p0 : ℝ × ℝ) (rest : List (ℝ × ℝ))
    (_hlen : 2 ≤ (p0 :: rest).length)
    (_hx : ((p0 :: rest).getLast (List.cons_ne_nil _ _)).1 ≠ p0.1) :
    calculate_epsilon (p0 :: rest) =
      Except.ok (epsilon_claim_formula (p0 :: rest)) ∧
    epsilon_claim_formula epsC3pts ≠ epsilon_true_length_formula epsC3pts := by
  constructor
  · unfold calculate_epsilon epsilon_claim_formula
    simp only []
    rw [list_map_div_sum]
  · have e1 : epsilon_claim_formula epsC3pts =
        1 / Real.sqrt 10 * 0.001 / 2 := by
      norm_num [epsilon_claim_formula, epsC3pts, List.getLast]
    have e2 : epsilon_true_length_formula epsC3pts =
        1 / Real.sqrt 13 * 0.001 / 2 := by
      norm_num [epsilon_true_length_formula, epsC3pts, List.getLast]
    rw [e1, e2]
    have h10 : (0 : ℝ) < Real.sqrt 10 := Real.sqrt_pos.mpr (by norm_num)
    have h13 : Real.sqrt 10 < Real.sqrt 13 :=
      Real.sqrt_lt_sqrt (by norm_num) (by norm_num)
    have hinv : 1 / Real.sqrt 13 < 1 / Real.sqrt 10 :=
      one_div_lt_one_div_of_lt h10 h13
    have hm : 1 / Real.sqrt 13 * (0.001 : ℝ) / 2 <
        1 / Real.sqrt 10 * 0.001 / 2 := by
      have := mul_lt_mul_of_pos_right hinv (by norm_num : (0 : ℝ) < 0.001)
      linarith
    exact ne_of_gt hm

/-- Witness for C3 at the concrete polyline epsC3pts, whose endpoints have
distinct x-coordinates 0 and 2. -/
theorem C3_witness :
    2 ≤ ([((0 : ℝ), (0 : ℝ)), ((1 : ℝ), (1 : ℝ)), ((2 : ℝ), (3 : ℝ))] :
      List (ℝ × ℝ)).length ∧
    ((([((0 : ℝ), (0 : ℝ)), ((1 : ℝ), (1 : ℝ)), ((2 : ℝ), (3 : ℝ))] :
        List (ℝ × ℝ)).getLast (List.cons_ne_nil _ _)).1 ≠
      ((0 : ℝ), (0 : ℝ)).1) ∧
    (calculate_epsilon
        [((0 : ℝ), (0 : ℝ)), ((1 : ℝ), (1 : ℝ)), ((2 : ℝ), (3 : ℝ))] =
      Except.ok (epsilon_claim_formula
        [((0 : ℝ), (0 : ℝ)), ((1 : ℝ), (1 : ℝ)), ((2 : ℝ), (3 : ℝ))]) ∧
    epsilon_claim_formula epsC3pts ≠ epsilon_true_length_formula epsC3pts) :=
  ⟨by norm_num, by norm_num [List.getLast],
    C3_calculate_epsilon_formula ((0 : ℝ), (0 : ℝ))
      [((1 : ℝ), (1 : ℝ)), ((2 : ℝ), (3 : ℝ))] (by norm_num)
      (by norm_num [List.getLast])⟩

end Rdplines
